import Mathlib

/-!
Verification of the PrimeNumGenerator core (Go sources under `pta/` and
`prng/`) against its natural-language specification.

Shallow embedding conventions:
* Go `*big.Int` values are nonnegative in every flow considered here, so they
  are modelled as `ℕ`; Go `int` loop counters appearing in public signatures
  are modelled as `ℤ` (a `for i := 0; i < k` loop runs `k.toNat` times).
* Randomness is passed in explicitly: each place the Go code calls
  `crypto/rand` receives the drawn value from an oracle argument.  For the
  primality tests the oracle `draw : ℕ → ℕ` yields, for each round index, the
  raw value returned by `rand.Int(rand.Reader, n-2)` (the code then adds 2);
  the time-seeded fallback branch produces a value in the same interval
  `[0, n-3]`, so the single oracle covers both branches.
* Go panics / out-of-range slice accesses are modelled as `none`.
* The unbounded prime-search loops are modelled with explicit fuel returning
  `Option`; all properties are proved for every value actually returned.
-/

/- ===== pta/mr.go and pta/fpt.go : witness sampling ===== -/

/-- The witness actually used by a test round: the code draws a raw value
`v = draw i` from `rand.Int(rand.Reader, n-2)` (so `v ∈ [0, n-3]`) and then
executes `a.Add(a, big.NewInt(2))`. -/
def witnessFromDraw (draw : ℕ → ℕ) (i : ℕ) : ℕ := draw i + 2

/- ===== pta/mr.go : MillerRabinTest ===== -/

/-- Fuel-based rendering of the `for d % 2 == 0 { d >>= 1; r++ }` loop of
`MillerRabinTest`.  The fuel is only a structural-recursion device: for
`fuel ≥ d` it never runs out (the loop halves `d` at each step).  The `d ≠ 0`
guard marks the one input on which the Go loop would never terminate; it is
unreachable from `MillerRabinTest` since there `d` starts at `n - 1 ≥ 4`. -/
def decomposeAux : ℕ → ℕ → ℕ → ℕ × ℕ
  | 0, r, d => (r, d)
  | fuel + 1, r, d =>
    if d ≠ 0 ∧ d % 2 = 0 then decomposeAux fuel (r + 1) (d / 2) else (r, d)

/-- Write `d0` as `2^r * d` with `d` odd, returning `(r, d)`; this is the
decomposition loop of `MillerRabinTest` applied to `d0 = n - 1`. -/
def decompose (d0 : ℕ) : ℕ × ℕ := decomposeAux d0 0 d0

/-- The squaring chain of a Miller-Rabin round: `mrSeq n x j` is `x` squared
modulo `n`, `j` times.  (`mrSeq n x 0 = x`.)  Also reused for the Blum-Blum-Shub
state sequence, which iterates the same map `x ↦ x^2 % n`. -/
def mrSeq (n x : ℕ) : ℕ → ℕ
  | 0 => x
  | j + 1 => mrSeq n x j ^ 2 % n

/-- The `for j := 0; j < r-1; j++` squaring loop of `millerRabinIteration`,
with `count` squarings remaining: square `x` modulo `n`; on `1` return
`false` (nontrivial square root of unity), on `n-1` return `true`, otherwise
continue; exhausting the loop returns `false`. -/
def mrSquareLoop (n : ℕ) : ℕ → ℕ → Bool
  | _, 0 => false
  | x, count + 1 =>
    let x2 := x ^ 2 % n
    if x2 = 1 then false
    else if x2 = n - 1 then true
    else mrSquareLoop n x2 count

/-- One witness round of `millerRabinIteration` (mr.go), for an already-shifted
witness `a`: compute `x = a^d mod n`; pass if `x = 1` or `x = n-1`; otherwise
run up to `r-1` squarings. -/
def millerRabinIteration (n d r a : ℕ) : Bool :=
  let x := a ^ d % n
  if x = 1 ∨ x = n - 1 then true
  else mrSquareLoop n x (r - 1)

/-- The `for i := 0; i < k; i++` witness loop of `MillerRabinTest`: `count`
rounds remaining, next round index `i`; stops with `false` at the first
failing round. -/
def mrRounds (n d r : ℕ) (draw : ℕ → ℕ) : ℕ → ℕ → Bool
  | _, 0 => true
  | i, count + 1 =>
    if millerRabinIteration n d r (witnessFromDraw draw i) then
      mrRounds n d r draw (i + 1) count
    else false

/-- `MillerRabinTest` (mr.go): special cases `n ∈ {2,3} → true`,
`n < 2` or even `n → false`; otherwise decompose `n-1 = 2^r * d` and run `k`
witness rounds. -/
def MillerRabinTest (n : ℕ) (k : ℤ) (draw : ℕ → ℕ) : Bool :=
  if n = 2 ∨ n = 3 then true
  else if n < 2 ∨ n % 2 = 0 then false
  else
    let rd := decompose (n - 1)
    mrRounds n rd.2 rd.1 draw 0 k.toNat

/- ===== pta/fpt.go : FermatTest ===== -/

/-- The witness loop of `FermatTest`: each round computes `a^(n-1) mod n` for
the drawn witness `a` and returns `false` as soon as a result differs from 1. -/
def fermatRounds (n : ℕ) (draw : ℕ → ℕ) : ℕ → ℕ → Bool
  | _, 0 => true
  | i, count + 1 =>
    if witnessFromDraw draw i ^ (n - 1) % n ≠ 1 then false
    else fermatRounds n draw (i + 1) count

/-- `FermatTest` (fpt.go): same special cases as `MillerRabinTest`, then `k`
Fermat witness rounds. -/
def FermatTest (n : ℕ) (k : ℤ) (draw : ℕ → ℕ) : Bool :=
  if n = 2 ∨ n = 3 then true
  else if n < 2 ∨ n % 2 = 0 then false
  else fermatRounds n draw 0 k.toNat

/- ===== the prime-search drivers ===== -/

/-- The witness-count table shared by both drivers: start from 20, bump to 30
when `bits > 256` and to 40 when `bits > 1024`. -/
def iteracoes (bits : ℕ) : ℕ :=
  if bits > 1024 then 40 else if bits > 256 then 30 else 20

/-- Executable bit length, with fuel as a structural-recursion device (for
`fuel ≥ n` the fuel never runs out). -/
def bitLenAux : ℕ → ℕ → ℕ
  | 0, _ => 0
  | fuel + 1, n => if n = 0 then 0 else bitLenAux fuel (n / 2) + 1

/-- `big.Int.BitLen` for nonnegative values: the number of binary digits
(`bitLen 0 = 0`).  Proved equal to Mathlib's `Nat.size` in
`bitLen_eq_size`. -/
def bitLen (n : ℕ) : ℕ := bitLenAux n n

/-- The `for candidato.BitLen() < bits { SetBit(bits-1) }` loop of both
drivers.  `SetBit(c, bits-1, 1)` is `c ||| 2^(bits-1)`; once that bit is set
the bit length is at least `bits`, so the Go loop body runs at most once and
the loop is exactly this conditional (see `forceBitLen_size`). -/
def forceBitLen (bits c : ℕ) : ℕ :=
  if bitLen c < bits then c ||| 2 ^ (bits - 1) else c

/-- The candidate shaping performed at the top of each driver attempt: force
the bit length up to `bits`, then force the low bit when the candidate is
even (`if candidato.Bit(0) == 0 { SetBit(0, 1) }`). -/
def shapeCandidate (bits c : ℕ) : ℕ :=
  if forceBitLen bits c % 2 = 0 then forceBitLen bits c ||| 1
  else forceBitLen bits c

/-- The retry loop of `GerarNumeroPrimo` (mr.go), with explicit fuel; `t` is
the number of attempts already made and `draws t'` is the witness oracle used
by attempt `t'`.  Each attempt shapes the candidate, tests it with the
table-selected witness count, and on failure adds 2 and retries. -/
def gerarNumeroPrimoAux (bits : ℕ) (draws : ℕ → ℕ → ℕ) :
    ℕ → ℕ → ℕ → Option (ℕ × ℕ)
  | 0, _, _ => none
  | fuel + 1, c, t =>
    let c1 := shapeCandidate bits c
    if MillerRabinTest c1 (iteracoes bits) (draws (t + 1)) then some (c1, t + 1)
    else gerarNumeroPrimoAux bits draws fuel (c1 + 2) (t + 1)

/-- `GerarNumeroPrimo` (mr.go): the Miller-Rabin-backed prime-search driver,
returning the accepted candidate together with the attempt count. -/
def GerarNumeroPrimo (bits c fuel : ℕ) (draws : ℕ → ℕ → ℕ) :
    Option (ℕ × ℕ) :=
  gerarNumeroPrimoAux bits draws fuel c 0

/-- The retry loop of `GeneratePrimeNumberFemart` (fpt.go); identical to the
Miller-Rabin driver except for the test applied. -/
def generatePrimeFermatAux (bits : ℕ) (draws : ℕ → ℕ → ℕ) :
    ℕ → ℕ → ℕ → Option (ℕ × ℕ)
  | 0, _, _ => none
  | fuel + 1, c, t =>
    let c1 := shapeCandidate bits c
    if FermatTest c1 (iteracoes bits) (draws (t + 1)) then some (c1, t + 1)
    else generatePrimeFermatAux bits draws fuel (c1 + 2) (t + 1)

/-- `GeneratePrimeNumberFemart` (fpt.go): the Fermat-backed prime-search
driver. -/
def GeneratePrimeNumberFemart (bits c fuel : ℕ) (draws : ℕ → ℕ → ℕ) :
    Option (ℕ × ℕ) :=
  generatePrimeFermatAux bits draws fuel c 0

/- ===== generic bit-arithmetic helpers ===== -/

/-- `x ||| 1` in terms of division and parity. -/
theorem lor_one_eq (x : ℕ) : x ||| 1 = 2 * (x / 2) + 1 := by
  have hd : (x ||| 1) / 2 = x / 2 := by
    rw [Nat.or_div_two]
    simp
  have hm : (x ||| 1) % 2 = 1 := Nat.or_mod_two_eq_one.mpr (Or.inr rfl)
  omega

theorem even_lor_one (x : ℕ) (h : x % 2 = 0) : x ||| 1 = x + 1 := by
  rw [lor_one_eq]; omega

theorem odd_lor_one (x : ℕ) (h : x % 2 = 1) : x ||| 1 = x := by
  rw [lor_one_eq]; omega

/-- Setting bit `bits - 1` forces the bit length up to `bits`. -/
theorem size_lor_two_pow (c bits : ℕ) (hb : 1 ≤ bits) :
    bits ≤ Nat.size (c ||| 2 ^ (bits - 1)) := by
  have htb : Nat.testBit (c ||| 2 ^ (bits - 1)) (bits - 1) = true := by
    rw [Nat.testBit_lor, Nat.testBit_two_pow_self, Bool.or_true]
  have hge : 2 ^ (bits - 1) ≤ c ||| 2 ^ (bits - 1) := Nat.testBit_implies_ge htb
  have := Nat.lt_size.mpr hge
  omega

/-- The bit-length recurrence `size n = size (n / 2) + 1` for `n ≠ 0`. -/
theorem size_div2_succ (n : ℕ) (hn : n ≠ 0) :
    Nat.size n = Nat.size (n / 2) + 1 := by
  have hub : n < 2 ^ (Nat.size (n / 2) + 1) := by
    have h1 : n / 2 < 2 ^ Nat.size (n / 2) := Nat.lt_size_self (n / 2)
    have h2 : 2 ^ (Nat.size (n / 2) + 1) = 2 * 2 ^ Nat.size (n / 2) := by ring
    omega
  have hlb : 2 ^ Nat.size (n / 2) ≤ n := by
    rcases Nat.eq_zero_or_pos (n / 2) with h0 | hpos
    · rw [h0, Nat.size_zero]
      omega
    · have hs1 : 1 ≤ Nat.size (n / 2) := Nat.size_pos.mpr hpos
      have h2 : 2 ^ (Nat.size (n / 2) - 1) ≤ n / 2 := Nat.lt_size.mp (by omega)
      have h3 : 2 ^ Nat.size (n / 2) = 2 * 2 ^ (Nat.size (n / 2) - 1) := by
        conv_lhs => rw [show Nat.size (n / 2) = (Nat.size (n / 2) - 1) + 1 from by
          omega]
        ring
      omega
  have h3 := Nat.size_le.mpr hub
  have h4 := Nat.lt_size.mpr hlb
  omega

theorem bitLenAux_eq_size : ∀ fuel n, n ≤ fuel → bitLenAux fuel n = Nat.size n := by
  intro fuel
  induction fuel with
  | zero =>
    intro n h
    have h0 : n = 0 := by omega
    subst h0
    rw [show bitLenAux 0 0 = 0 from rfl, Nat.size_zero]
  | succ f ih =>
    intro n h
    by_cases h0 : n = 0
    · subst h0
      rw [show bitLenAux (f + 1) 0 = 0 from by simp [bitLenAux], Nat.size_zero]
    · rw [show bitLenAux (f + 1) n = bitLenAux f (n / 2) + 1 from by
        simp [bitLenAux, h0]]
      rw [ih (n / 2) (by omega), size_div2_succ n h0]

/-- The executable bit length agrees with `Nat.size`. -/
theorem bitLen_eq_size (n : ℕ) : bitLen n = Nat.size n :=
  bitLenAux_eq_size n n le_rfl

/- ===== round-loop characterizations ===== -/

/-- The Fermat witness loop passes exactly when every remaining round's
modular exponentiation yields 1. -/
theorem fermatRounds_iff (n : ℕ) (draw : ℕ → ℕ) :
    ∀ count i, (fermatRounds n draw i count = true ↔
      ∀ t < count, witnessFromDraw draw (i + t) ^ (n - 1) % n = 1) := by
  intro count
  induction count with
  | zero => intro i; simp [fermatRounds]
  | succ m ih =>
    intro i
    by_cases h : witnessFromDraw draw i ^ (n - 1) % n = 1
    · rw [show fermatRounds n draw i (m + 1) = fermatRounds n draw (i + 1) m from by
        simp [fermatRounds, h]]
      rw [ih (i + 1)]
      constructor
      · intro hall t ht
        rcases Nat.eq_zero_or_pos t with rfl | htpos
        · simpa using h
        · have hh := hall (t - 1) (by omega)
          rwa [show i + 1 + (t - 1) = i + t from by omega] at hh
      · intro hall t ht
        have hh := hall (t + 1) (by omega)
        rwa [show i + (t + 1) = i + 1 + t from by omega] at hh
    · rw [show fermatRounds n draw i (m + 1) = false from by simp [fermatRounds, h]]
      refine iff_of_false (by simp) fun hall => ?_
      exact h (by simpa using hall 0 (by omega))
  
/-- The Miller-Rabin witness loop passes exactly when every remaining round's
iteration passes. -/
theorem mrRounds_iff (n d r : ℕ) (draw : ℕ → ℕ) :
    ∀ count i, (mrRounds n d r draw i count = true ↔
      ∀ t < count, millerRabinIteration n d r (witnessFromDraw draw (i + t)) = true) := by
  intro count
  induction count with
  | zero => intro i; simp [mrRounds]
  | succ m ih =>
    intro i
    by_cases h : millerRabinIteration n d r (witnessFromDraw draw i) = true
    · rw [show mrRounds n d r draw i (m + 1) = mrRounds n d r draw (i + 1) m from by
        simp [mrRounds, h]]
      rw [ih (i + 1)]
      constructor
      · intro hall t ht
        rcases Nat.eq_zero_or_pos t with rfl | htpos
        · simpa using h
        · have hh := hall (t - 1) (by omega)
          rwa [show i + 1 + (t - 1) = i + t from by omega] at hh
      · intro hall t ht
        have hh := hall (t + 1) (by omega)
        rwa [show i + (t + 1) = i + 1 + t from by omega] at hh
    · rw [show mrRounds n d r draw i (m + 1) = false from by simp [mrRounds, h]]
      refine iff_of_false (by simp) fun hall => ?_
      exact h (by simpa using hall 0 (by omega))

/-- For odd `n ≥ 5`, `FermatTest` reaches the witness loop and accepts exactly
when all `k` rounds yield 1. -/
theorem fermatTest_true_iff (n : ℕ) (k : ℤ) (draw : ℕ → ℕ)
    (hodd : n % 2 = 1) (h5 : 5 ≤ n) :
    FermatTest n k draw = true ↔
      ∀ i < k.toNat, witnessFromDraw draw i ^ (n - 1) % n = 1 := by
  unfold FermatTest
  rw [if_neg (by omega), if_neg (by omega)]
  simpa using fermatRounds_iff n draw k.toNat 0

/- ===== fixed draw oracles used for concrete evaluations ===== -/

/-- The constant-zero draw oracle (every round draws raw value 0, witness 2). -/
def dZero : ℕ → ℕ := fun _ => 0

/-- The constant-two draw oracle. -/
def dTwo : ℕ → ℕ := fun _ => 2

/- ===== C10 ===== -/

/-- C10: for every odd `n ≥ 5` and witness count `k ≤ 0` (zero or negative),
both `FermatTest` and `MillerRabinTest` return `true` unconditionally, because
the witness loop executes zero rounds after the special cases. -/
theorem tests_vacuous_nonpositive_k (n : ℕ) (k : ℤ) (draw : ℕ → ℕ)
    (hodd : n % 2 = 1) (h5 : 5 ≤ n) (hk : k ≤ 0) :
    FermatTest n k draw = true ∧ MillerRabinTest n k draw = true := by
  have ht : k.toNat = 0 := Int.toNat_of_nonpos hk
  constructor
  · unfold FermatTest
    rw [if_neg (by omega), if_neg (by omega), ht]
    rfl
  · unfold MillerRabinTest
    rw [if_neg (by omega), if_neg (by omega), ht]
    rfl

/-- C10 witness: at the composite 9 with `k = 0` and `k = -1`, both tests
accept. -/
theorem tests_vacuous_nonpositive_k_witness :
    (FermatTest 9 0 dZero = true ∧ MillerRabinTest 9 0 dZero = true) ∧
    (FermatTest 9 (-1) dZero = true ∧ MillerRabinTest 9 (-1) dZero = true) :=
  ⟨tests_vacuous_nonpositive_k 9 0 dZero (by decide) (by decide) (by decide),
   tests_vacuous_nonpositive_k 9 (-1) dZero (by decide) (by decide) (by decide)⟩

/- ===== C3 ===== -/

/-- C3 counterexample: the sampling step can produce the raw value 2 when
`n = 5` (since `rand.Int(rand.Reader, n-2)` ranges over `[0, n-3]` and
`2 < 5 - 2`), and the resulting witness is `4 = n - 1`, which is strictly
greater than `n - 2 = 3`; so the claimed upper bound `a ≤ n - 2` is false. -/
theorem witness_upper_bound_counterexample :
    2 < 5 - 2 ∧ witnessFromDraw dTwo 0 = 5 - 1 ∧
      ¬(witnessFromDraw dTwo 0 ≤ 5 - 2) := by decide

/-- C3 amended: in every witness round of both tests on odd `n ≥ 5`, the
witness `a = draw i + 2` built from a raw value `draw i < n - 2` (the exact
range `rand.Int(rand.Reader, n-2)` and the time fallback can produce)
satisfies `2 ≤ a ≤ n - 1`; the upper end `n - 1` is attained, so `n - 2` is
not an upper bound. -/
theorem witness_range_amended (n : ℕ) (draw : ℕ → ℕ) (i : ℕ)
    (h5 : 5 ≤ n) (hdraw : draw i < n - 2) :
    2 ≤ witnessFromDraw draw i ∧ witnessFromDraw draw i ≤ n - 1 := by
  unfold witnessFromDraw
  omega

/-- C3 amended witness: at `n = 5` with raw draw 2. -/
theorem witness_range_amended_witness :
    2 ≤ witnessFromDraw dTwo 0 ∧ witnessFromDraw dTwo 0 ≤ 5 - 1 :=
  witness_range_amended 5 dTwo 0 (by decide) (by decide)

/- ===== C4 ===== -/

/-- C4: both tests special-case `n ∈ {2, 3}` to `true` and `n < 2` or even
`n` (other than 2) to `false`; and for odd `n ≥ 5`, `FermatTest n k` runs `k`
rounds computing `a^(n-1) mod n`, accepting exactly when every round yields 1,
and a failing round forces rejection regardless of all later draws. -/
theorem primality_special_cases_and_fermat_rounds (n : ℕ) (k : ℤ)
    (draw : ℕ → ℕ) :
    (FermatTest 2 k draw = true ∧ FermatTest 3 k draw = true ∧
     MillerRabinTest 2 k draw = true ∧ MillerRabinTest 3 k draw = true) ∧
    (n < 2 → FermatTest n k draw = false ∧ MillerRabinTest n k draw = false) ∧
    (n % 2 = 0 → n ≠ 2 →
      FermatTest n k draw = false ∧ MillerRabinTest n k draw = false) ∧
    (n % 2 = 1 → 5 ≤ n →
      (FermatTest n k draw = true ↔
        ∀ i < k.toNat, witnessFromDraw draw i ^ (n - 1) % n = 1) ∧
      (∀ i0 < k.toNat, witnessFromDraw draw i0 ^ (n - 1) % n ≠ 1 →
        ∀ draw2 : ℕ → ℕ, (∀ i ≤ i0, draw2 i = draw i) →
          FermatTest n k draw2 = false)) := by
  refine ⟨⟨by simp [FermatTest], by simp [FermatTest],
           by simp [MillerRabinTest], by simp [MillerRabinTest]⟩,
          fun h2 => ⟨?_, ?_⟩, fun heven hne2 => ⟨?_, ?_⟩, fun hodd h5 => ⟨?_, ?_⟩⟩
  · unfold FermatTest
    rw [if_neg (by omega), if_pos (by omega)]
  · unfold MillerRabinTest
    rw [if_neg (by omega), if_pos (by omega)]
  · unfold FermatTest
    rw [if_neg (by omega), if_pos (by omega)]
  · unfold MillerRabinTest
    rw [if_neg (by omega), if_pos (by omega)]
  · exact fermatTest_true_iff n k draw hodd h5
  · intro i0 hi0 hfail draw2 hagree
    cases hb : FermatTest n k draw2 with
    | false => rfl
    | true =>
      have hall := (fermatTest_true_iff n k draw2 hodd h5).mp hb
      have := hall i0 hi0
      rw [show witnessFromDraw draw2 i0 = witnessFromDraw draw i0 from by
        unfold witnessFromDraw; rw [hagree i0 le_rfl]] at this
      exact absurd this hfail

/-- C4 witness: the special cases at 2 and 0, and at `n = 9`, `k = 1` with
witness 2 the test rejects (`2^8 mod 9 = 4 ≠ 1`). -/
theorem primality_special_cases_witness :
    FermatTest 2 7 dZero = true ∧ MillerRabinTest 3 7 dZero = true ∧
    FermatTest 0 7 dZero = false ∧ FermatTest 6 7 dZero = false ∧
    FermatTest 9 1 dZero = false := by
  have h0 := primality_special_cases_and_fermat_rounds 0 7 dZero
  have h6 := primality_special_cases_and_fermat_rounds 6 7 dZero
  have h9 := primality_special_cases_and_fermat_rounds 9 1 dZero
  refine ⟨h0.1.1, h0.1.2.2.1, (h0.2.1 (by decide)).1, (h6.2.2.1 (by decide) (by decide)).1, ?_⟩
  exact (h9.2.2.2 (by decide) (by decide)).2 0 (by decide) (by decide) dZero
    (fun i _ => rfl)

/- ===== C1 : the Miller-Rabin machinery ===== -/

/-- Correctness of the halving loop: for `d ≠ 0` and enough fuel, it returns
`(r, d')` with `d'` odd and `2^(r - r0) * d' = d`. -/
theorem decomposeAux_spec :
    ∀ fuel r d, d ≠ 0 → d ≤ fuel →
      (decomposeAux fuel r d).2 % 2 = 1 ∧
      2 ^ ((decomposeAux fuel r d).1 - r) * (decomposeAux fuel r d).2 = d ∧
      r ≤ (decomposeAux fuel r d).1 := by
  intro fuel
  induction fuel with
  | zero => intro r d hd hle; omega
  | succ m ih =>
    intro r d hd hle
    by_cases h : d ≠ 0 ∧ d % 2 = 0
    · rw [show decomposeAux (m + 1) r d = decomposeAux m (r + 1) (d / 2) from by
        simp [decomposeAux, h]]
      obtain ⟨hodd, heq, hler⟩ := ih (r + 1) (d / 2) (by omega) (by omega)
      refine ⟨hodd, ?_, by omega⟩
      have hexp : (decomposeAux m (r + 1) (d / 2)).1 - r =
          ((decomposeAux m (r + 1) (d / 2)).1 - (r + 1)) + 1 := by omega
      rw [hexp, pow_succ]
      have hcomm : 2 ^ ((decomposeAux m (r + 1) (d / 2)).1 - (r + 1)) * 2 *
          (decomposeAux m (r + 1) (d / 2)).2 =
          2 ^ ((decomposeAux m (r + 1) (d / 2)).1 - (r + 1)) *
          (decomposeAux m (r + 1) (d / 2)).2 * 2 := by ring
      rw [hcomm, heq]
      omega
    · rw [show decomposeAux (m + 1) r d = (r, d) from by simp [decomposeAux, h]]
      refine ⟨by omega, by simp, le_rfl⟩

/-- `decompose d0` really decomposes: `d0 = 2^r * d` with `d` odd. -/
theorem decompose_spec (d0 : ℕ) (hd : d0 ≠ 0) :
    2 ^ (decompose d0).1 * (decompose d0).2 = d0 ∧ (decompose d0).2 % 2 = 1 := by
  obtain ⟨hodd, heq, -⟩ := decomposeAux_spec d0 0 d0 hd le_rfl
  exact ⟨by simpa using heq, hodd⟩

/-- When `d0` is even the decomposition performs at least one halving. -/
theorem decompose_pos (d0 : ℕ) (hd : d0 ≠ 0) (he : d0 % 2 = 0) :
    1 ≤ (decompose d0).1 := by
  obtain ⟨heq, hodd⟩ := decompose_spec d0 hd
  by_contra hr
  have : (decompose d0).1 = 0 := by omega
  rw [this] at heq
  simp at heq
  omega

/-- Shifting the start of the squaring chain by one squaring. -/
theorem mrSeq_shift (n x : ℕ) : ∀ j, mrSeq n (x ^ 2 % n) j = mrSeq n x (j + 1) := by
  intro j
  induction j with
  | zero => rfl
  | succ m ih =>
    show mrSeq n (x ^ 2 % n) m ^ 2 % n = mrSeq n x (m + 1) ^ 2 % n
    rw [ih]

/-- Exact semantics of the squaring loop: it passes exactly when some squaring
reaches `n - 1` within the budget, with no earlier squaring hitting `1` or
`n - 1`. -/
theorem mrSquareLoop_iff (n : ℕ) (h5 : 5 ≤ n) :
    ∀ count x, (mrSquareLoop n x count = true ↔
      ∃ j < count, mrSeq n x (j + 1) = n - 1 ∧
        ∀ i < j, mrSeq n x (i + 1) ≠ 1 ∧ mrSeq n x (i + 1) ≠ n - 1) := by
  intro count
  induction count with
  | zero => intro x; simp [mrSquareLoop]
  | succ m ih =>
    intro x
    by_cases h1 : x ^ 2 % n = 1
    · rw [show mrSquareLoop n x (m + 1) = false from by simp [mrSquareLoop, h1]]
      refine iff_of_false (by simp) fun ⟨j, hj, hn1, hall⟩ => ?_
      rcases Nat.eq_zero_or_pos j with rfl | hjpos
      · rw [show mrSeq n x 1 = x ^ 2 % n from rfl, h1] at hn1
        omega
      · exact (hall 0 hjpos).1 (by rw [show mrSeq n x 1 = x ^ 2 % n from rfl, h1])
    · by_cases h2 : x ^ 2 % n = n - 1
      · rw [show mrSquareLoop n x (m + 1) = true from by
          simp [mrSquareLoop, h1, h2]
          omega]
        refine iff_of_true rfl
          ⟨0, by omega, ?_, fun i hi => absurd hi (Nat.not_lt_zero i)⟩
        rw [show mrSeq n x 1 = x ^ 2 % n from rfl, h2]
      · rw [show mrSquareLoop n x (m + 1) = mrSquareLoop n (x ^ 2 % n) m from by
          simp [mrSquareLoop, h1, h2]]
        rw [ih (x ^ 2 % n)]
        constructor
        · rintro ⟨j, hj, hn1, hall⟩
          refine ⟨j + 1, by omega, by rwa [mrSeq_shift] at hn1, ?_⟩
          intro i hi
          rcases Nat.eq_zero_or_pos i with rfl | hipos
          · rw [show mrSeq n x 1 = x ^ 2 % n from rfl]
            exact ⟨h1, h2⟩
          · have := hall (i - 1) (by omega)
            rw [mrSeq_shift, show i - 1 + 1 + 1 = i + 1 from by omega] at this
            exact this
        · rintro ⟨j, hj, hn1, hall⟩
          rcases Nat.eq_zero_or_pos j with rfl | hjpos
          · rw [show mrSeq n x 1 = x ^ 2 % n from rfl] at hn1
            exact absurd hn1 h2
          · refine ⟨j - 1, by omega, ?_, ?_⟩
            · rw [mrSeq_shift, show j - 1 + 1 + 1 = j + 1 from by omega]
              exact hn1
            · intro i hi
              have := hall (i + 1) (by omega)
              rwa [show i + 1 + 1 = i + 1 + 1 from rfl, ← mrSeq_shift] at this

/-- Exact semantics of a single Miller-Rabin witness round for odd `n ≥ 5`:
with `x = a^d mod n`, the round passes exactly when `x = 1`, or some element
of the squaring chain `x, x^2, x^(2^2), ...` (within `j < r` squarings)
equals `n - 1` with no earlier chain element equal to `1` or `n - 1`; in
particular it returns composite as soon as a squaring yields `1`, passes as
soon as one yields `n - 1`, and fails when the `r - 1` squarings are
exhausted. -/
theorem millerRabinIteration_iff (n d r a : ℕ) (h5 : 5 ≤ n) (hr : 1 ≤ r) :
    millerRabinIteration n d r a = true ↔
      (a ^ d % n = 1 ∨
       ∃ j < r, mrSeq n (a ^ d % n) j = n - 1 ∧
         ∀ i < j, mrSeq n (a ^ d % n) i ≠ 1 ∧ mrSeq n (a ^ d % n) i ≠ n - 1) := by
  unfold millerRabinIteration
  by_cases hx : a ^ d % n = 1 ∨ a ^ d % n = n - 1
  · rw [if_pos hx]
    refine iff_of_true rfl ?_
    rcases hx with hx1 | hxn
    · exact Or.inl hx1
    · exact Or.inr ⟨0, by omega, hxn, fun i hi => absurd hi (Nat.not_lt_zero i)⟩
  · rw [if_neg hx]
    push_neg at hx
    rw [mrSquareLoop_iff n h5 (r - 1) (a ^ d % n)]
    constructor
    · rintro ⟨j, hj, hn1, hall⟩
      refine Or.inr ⟨j + 1, by omega, hn1, ?_⟩
      intro i hi
      rcases Nat.eq_zero_or_pos i with rfl | hipos
      · exact hx
      · have := hall (i - 1) (by omega)
        rwa [show i - 1 + 1 = i from by omega] at this
    · rintro (hx1 | ⟨j, hj, hn1, hall⟩)
      · exact absurd hx1 hx.1
      · rcases Nat.eq_zero_or_pos j with rfl | hjpos
        · exact absurd hn1 hx.2
        · refine ⟨j - 1, by omega, by rwa [show j - 1 + 1 = j from by omega], ?_⟩
          intro i hi
          exact hall (i + 1) (by omega)

/-- C1: for odd `n ≥ 5`, `MillerRabinTest` decomposes `n - 1 = 2^r * d` with
`d` odd; a single witness iteration with base `a` passes exactly when
`x = a^d mod n` is 1, or the squaring chain of `x` reaches `n - 1` within the
budget `r` with no earlier element equal to 1 or `n - 1` (so it returns
composite as soon as a squaring yields 1, passes as soon as one yields
`n - 1` — the chain element at index 0 being the pre-loop `x = n - 1` check —
and fails when the squarings are exhausted); and the test returns `true`
exactly when all `k` rounds pass, hence `false` as soon as one round fails. -/
theorem millerRabin_test_characterization (n : ℕ) (k : ℤ) (draw : ℕ → ℕ)
    (hodd : n % 2 = 1) (h5 : 5 ≤ n) :
    (n - 1 = 2 ^ (decompose (n - 1)).1 * (decompose (n - 1)).2 ∧
     (decompose (n - 1)).2 % 2 = 1) ∧
    (∀ a, millerRabinIteration n (decompose (n - 1)).2 (decompose (n - 1)).1 a
        = true ↔
       (a ^ (decompose (n - 1)).2 % n = 1 ∨
        ∃ j < (decompose (n - 1)).1,
          mrSeq n (a ^ (decompose (n - 1)).2 % n) j = n - 1 ∧
          ∀ i < j, mrSeq n (a ^ (decompose (n - 1)).2 % n) i ≠ 1 ∧
                   mrSeq n (a ^ (decompose (n - 1)).2 % n) i ≠ n - 1)) ∧
    (MillerRabinTest n k draw = true ↔
       ∀ i < k.toNat,
         millerRabinIteration n (decompose (n - 1)).2 (decompose (n - 1)).1
           (witnessFromDraw draw i) = true) := by
  have hne : n - 1 ≠ 0 := by omega
  have heven : (n - 1) % 2 = 0 := by omega
  have hr := decompose_pos (n - 1) hne heven
  obtain ⟨heq, hd⟩ := decompose_spec (n - 1) hne
  refine ⟨⟨heq.symm, hd⟩, fun a => millerRabinIteration_iff n _ _ a h5 hr, ?_⟩
  unfold MillerRabinTest
  rw [if_neg (by omega), if_neg (by omega)]
  simpa using mrRounds_iff n (decompose (n - 1)).2 (decompose (n - 1)).1 draw
    k.toNat 0

/-- C1 witness: at the composite `n = 9` the decomposition gives
`8 = 2^3 * 1`, and with one round of witness 2 (`2^1 = 2`, squarings
`4, 7` never reaching 8) the test rejects. -/
theorem millerRabin_test_characterization_witness :
    (9 - 1 = 2 ^ (decompose (9 - 1)).1 * (decompose (9 - 1)).2 ∧
     (decompose (9 - 1)).2 % 2 = 1) ∧
    MillerRabinTest 9 1 dZero = false := by
  have h := millerRabin_test_characterization 9 1 dZero (by decide) (by decide)
  refine ⟨h.1, ?_⟩
  cases hb : MillerRabinTest 9 1 dZero with
  | false => rfl
  | true =>
    have hall := h.2.2.mp hb
    exact absurd (hall 0 (by decide)) (by decide)

/- ===== C2 / C9 : candidate shaping and the drivers ===== -/

/-- A second draw-oracle shape: `draws t i` is the raw value drawn in round
`i` of attempt `t`. This one is the constant-zero instance. -/
def ddZero : ℕ → ℕ → ℕ := fun _ _ => 0

/-- The bit-length forcing loop establishes `BitLen ≥ bits` (and hence runs
at most once in the Go source). -/
theorem forceBitLen_size (bits c : ℕ) (hb : 1 ≤ bits) :
    bits ≤ Nat.size (forceBitLen bits c) := by
  unfold forceBitLen
  by_cases h : bitLen c < bits
  · rw [if_pos h]
    exact size_lor_two_pow c bits hb
  · rw [if_neg h]
    rw [bitLen_eq_size] at h
    omega

theorem shapeCandidate_size (bits c : ℕ) (hb : 1 ≤ bits) :
    bits ≤ Nat.size (shapeCandidate bits c) := by
  unfold shapeCandidate
  by_cases h : forceBitLen bits c % 2 = 0
  · rw [if_pos h, even_lor_one _ h]
    have h1 := forceBitLen_size bits c hb
    have h2 := Nat.size_le_size
      (show forceBitLen bits c ≤ forceBitLen bits c + 1 from by omega)
    omega
  · rw [if_neg h]
    exact forceBitLen_size bits c hb

theorem shapeCandidate_odd (bits c : ℕ) : shapeCandidate bits c % 2 = 1 := by
  unfold shapeCandidate
  by_cases h : forceBitLen bits c % 2 = 0
  · rw [if_pos h, even_lor_one _ h]
    omega
  · rw [if_neg h]
    omega

/-- The shaping never clears a bit of the candidate. -/
theorem forceBitLen_testBit_mono (bits c i : ℕ) (h : c.testBit i = true) :
    (forceBitLen bits c).testBit i = true := by
  unfold forceBitLen
  by_cases hs : bitLen c < bits
  · rw [if_pos hs, Nat.testBit_lor, h, Bool.true_or]
  · rw [if_neg hs]
    exact h

theorem shapeCandidate_testBit_mono (bits c i : ℕ) (h : c.testBit i = true) :
    (shapeCandidate bits c).testBit i = true := by
  unfold shapeCandidate
  have h1 := forceBitLen_testBit_mono bits c i h
  by_cases he : forceBitLen bits c % 2 = 0
  · rw [if_pos he, Nat.testBit_lor, h1, Bool.true_or]
  · rw [if_neg he]
    exact h1

/-- The shaping touches no bit other than bit `bits - 1` and bit 0. -/
theorem forceBitLen_testBit_ne (bits c i : ℕ) (hi : i ≠ bits - 1) :
    (forceBitLen bits c).testBit i = c.testBit i := by
  unfold forceBitLen
  by_cases hs : bitLen c < bits
  · rw [if_pos hs, Nat.testBit_lor, Nat.testBit_two_pow_of_ne (Ne.symm hi),
      Bool.or_false]
  · rw [if_neg hs]

theorem shapeCandidate_testBit_ne (bits c i : ℕ) (hi1 : i ≠ bits - 1)
    (hi0 : i ≠ 0) : (shapeCandidate bits c).testBit i = c.testBit i := by
  unfold shapeCandidate
  have hbit1 : Nat.testBit 1 i = false := by
    rw [show (1 : ℕ) = 2 ^ 0 from rfl]
    exact Nat.testBit_two_pow_of_ne (Ne.symm hi0)
  by_cases he : forceBitLen bits c % 2 = 0
  · rw [if_pos he, Nat.testBit_lor, hbit1, Bool.or_false]
    exact forceBitLen_testBit_ne bits c i hi1
  · rw [if_neg he]
    exact forceBitLen_testBit_ne bits c i hi1

/-- On an already-shaped candidate (full bit length and odd) the shaping is
the identity: it only ever sets the top bit or the low bit. -/
theorem shapeCandidate_noop (bits c : ℕ) (hs : bits ≤ Nat.size c)
    (ho : c % 2 = 1) : shapeCandidate bits c = c := by
  have hf : forceBitLen bits c = c := by
    unfold forceBitLen
    rw [if_neg (by rw [bitLen_eq_size]; omega)]
  unfold shapeCandidate
  rw [hf, if_neg (by omega)]

/-- Any value returned by the Miller-Rabin driver loop is a shaped candidate
that the test accepted, with a strictly increased attempt counter. -/
theorem gerarNumeroPrimoAux_spec (bits : ℕ) (draws : ℕ → ℕ → ℕ) :
    ∀ fuel c t r t2, gerarNumeroPrimoAux bits draws fuel c t = some (r, t2) →
      (∃ x, r = shapeCandidate bits x) ∧
      MillerRabinTest r (iteracoes bits) (draws t2) = true ∧ t < t2 := by
  intro fuel
  induction fuel with
  | zero => intro c t r t2 h; exact absurd h (by simp [gerarNumeroPrimoAux])
  | succ m ih =>
    intro c t r t2 h
    simp only [gerarNumeroPrimoAux] at h
    by_cases htest : MillerRabinTest (shapeCandidate bits c) (iteracoes bits)
        (draws (t + 1)) = true
    · rw [if_pos htest] at h
      simp only [Option.some.injEq, Prod.mk.injEq] at h
      obtain ⟨rfl, rfl⟩ := h
      exact ⟨⟨c, rfl⟩, htest, by omega⟩
    · rw [if_neg htest] at h
      obtain ⟨hx, ht, hlt⟩ := ih _ _ _ _ h
      exact ⟨hx, ht, by omega⟩

/-- Same for the Fermat driver loop. -/
theorem generatePrimeFermatAux_spec (bits : ℕ) (draws : ℕ → ℕ → ℕ) :
    ∀ fuel c t r t2, generatePrimeFermatAux bits draws fuel c t = some (r, t2) →
      (∃ x, r = shapeCandidate bits x) ∧
      FermatTest r (iteracoes bits) (draws t2) = true ∧ t < t2 := by
  intro fuel
  induction fuel with
  | zero => intro c t r t2 h; exact absurd h (by simp [generatePrimeFermatAux])
  | succ m ih =>
    intro c t r t2 h
    simp only [generatePrimeFermatAux] at h
    by_cases htest : FermatTest (shapeCandidate bits c) (iteracoes bits)
        (draws (t + 1)) = true
    · rw [if_pos htest] at h
      simp only [Option.some.injEq, Prod.mk.injEq] at h
      obtain ⟨rfl, rfl⟩ := h
      exact ⟨⟨c, rfl⟩, htest, by omega⟩
    · rw [if_neg htest] at h
      obtain ⟨hx, ht, hlt⟩ := ih _ _ _ _ h
      exact ⟨hx, ht, by omega⟩

/-- C2: for `bits ≥ 1`, whatever value `(r, t)` either driver returns
satisfies `BitLen(r) ≥ bits`, `r` odd, attempt count `t ≥ 1`, and `r` was
accepted by the selected test with the table-selected witness count
(20 / 30 / 40); and the shaping only ever sets bits — it never clears one,
it touches only bit `bits-1` and bit 0, and it is the identity on a
candidate that already has full bit length and is odd. -/
theorem prime_search_driver_spec (bits c fuel : ℕ)
    (drawsM drawsF : ℕ → ℕ → ℕ) (hb : 1 ≤ bits) :
    (∀ r t, GerarNumeroPrimo bits c fuel drawsM = some (r, t) →
        bits ≤ Nat.size r ∧ r % 2 = 1 ∧ 1 ≤ t ∧
        MillerRabinTest r (iteracoes bits) (drawsM t) = true) ∧
    (∀ r t, GeneratePrimeNumberFemart bits c fuel drawsF = some (r, t) →
        bits ≤ Nat.size r ∧ r % 2 = 1 ∧ 1 ≤ t ∧
        FermatTest r (iteracoes bits) (drawsF t) = true) ∧
    (bits ≤ 256 → iteracoes bits = 20) ∧
    (256 < bits → bits ≤ 1024 → iteracoes bits = 30) ∧
    (1024 < bits → iteracoes bits = 40) ∧
    (∀ x i, x.testBit i = true → (shapeCandidate bits x).testBit i = true) ∧
    (∀ x i, i ≠ bits - 1 → i ≠ 0 →
        (shapeCandidate bits x).testBit i = x.testBit i) ∧
    (∀ x, bits ≤ Nat.size x → x % 2 = 1 → shapeCandidate bits x = x) := by
  refine ⟨fun r t h => ?_, fun r t h => ?_,
    fun h1 => by unfold iteracoes; rw [if_neg (by omega), if_neg (by omega)],
    fun h1 h2 => by unfold iteracoes; rw [if_neg (by omega), if_pos (by omega)],
    fun h1 => by unfold iteracoes; rw [if_pos (by omega)],
    fun x i h => shapeCandidate_testBit_mono bits x i h,
    fun x i h1 h0 => shapeCandidate_testBit_ne bits x i h1 h0,
    fun x h1 h2 => shapeCandidate_noop bits x h1 h2⟩
  · obtain ⟨⟨x, rfl⟩, ht, hlt⟩ := gerarNumeroPrimoAux_spec bits drawsM fuel c 0 r t h
    exact ⟨shapeCandidate_size bits x hb, shapeCandidate_odd bits x, by omega, ht⟩
  · obtain ⟨⟨x, rfl⟩, ht, hlt⟩ :=
      generatePrimeFermatAux_spec bits drawsF fuel c 0 r t h
    exact ⟨shapeCandidate_size bits x hb, shapeCandidate_odd bits x, by omega, ht⟩

/-- C2 witness: with `bits = 2`, candidate 0 and one unit of fuel, the
Miller-Rabin driver returns `(3, 1)` and all claimed properties hold there. -/
theorem prime_search_driver_spec_witness :
    2 ≤ Nat.size 3 ∧ 3 % 2 = 1 ∧ 1 ≤ 1 ∧
      MillerRabinTest 3 (iteracoes 2) (ddZero 1) = true :=
  (prime_search_driver_spec 2 0 1 ddZero ddZero (by decide)).1 3 1 (by decide)

/- ===== C9 ===== -/

/-- C9 counterexample: with `bits = 3` and initial candidate 2, the
Miller-Rabin driver returns `(7, 1)` — the shaping forces bit 2 and the low
bit (`2 → 6 → 7`), so the returned value is 7, not 2 or 3 (indeed for
`bits = 3` the shaped candidate always has bit 2 set, so 2 and 3 can never
be returned, and the shaped candidate is always odd, so 2 can never be
returned for any `bits`). -/
theorem driver_small_bits_counterexample :
    GerarNumeroPrimo 3 2 1 ddZero = some (7, 1) ∧ ¬(7 = 2 ∨ 7 = 3) := by decide

/-- C9 amended: for `bits = 2` and an initial candidate of at most two bits
(`c ≤ 3`), both drivers return 3 with attempt count 1, via the special-case
short-circuit of both tests and without entering the increment-by-2 retry
loop; they never return 2 (the shaped candidate is odd), and for `bits = 3`
any returned value is at least 5 — never 2 or 3 — because the shaping forces
bit 2 and oddness. -/
theorem driver_small_bits_amended (c fuel : ℕ) (dM dF : ℕ → ℕ → ℕ)
    (hc : c ≤ 3) (hf : 1 ≤ fuel) :
    GerarNumeroPrimo 2 c fuel dM = some (3, 1) ∧
    GeneratePrimeNumberFemart 2 c fuel dF = some (3, 1) ∧
    (∀ r t, GerarNumeroPrimo 3 c fuel dM = some (r, t) →
        5 ≤ r ∧ ¬(r = 2 ∨ r = 3)) ∧
    (∀ r t, GeneratePrimeNumberFemart 3 c fuel dF = some (r, t) →
        5 ≤ r ∧ ¬(r = 2 ∨ r = 3)) := by
  obtain ⟨m, rfl⟩ : ∃ m, fuel = m + 1 := ⟨fuel - 1, by omega⟩
  have hshape : shapeCandidate 2 c = 3 := by
    interval_cases c <;> decide
  have hsize : ∀ r : ℕ, 3 ≤ Nat.size r → r % 2 = 1 → 5 ≤ r ∧ ¬(r = 2 ∨ r = 3) := by
    intro r hs ho
    have h4 : 2 ^ 2 ≤ r := Nat.lt_size.mp (by omega)
    omega
  refine ⟨?_, ?_, fun r t h => ?_, fun r t h => ?_⟩
  · unfold GerarNumeroPrimo gerarNumeroPrimoAux
    rw [hshape, if_pos (by simp [MillerRabinTest])]
  · unfold GeneratePrimeNumberFemart generatePrimeFermatAux
    rw [hshape, if_pos (by simp [FermatTest])]
  · obtain ⟨hs, ho, -, -⟩ :=
      (prime_search_driver_spec 3 c (m + 1) dM dF (by omega)).1 r t h
    exact hsize r hs ho
  · obtain ⟨hs, ho, -, -⟩ :=
      (prime_search_driver_spec 3 c (m + 1) dM dF (by omega)).2.1 r t h
    exact hsize r hs ho

/-- C9 amended witness: candidate 2, one unit of fuel. -/
theorem driver_small_bits_amended_witness :
    GerarNumeroPrimo 2 2 1 ddZero = some (3, 1) ∧
    GeneratePrimeNumberFemart 2 2 1 ddZero = some (3, 1) :=
  ⟨(driver_small_bits_amended 2 1 ddZero ddZero (by decide) (by decide)).1,
   (driver_small_bits_amended 2 1 ddZero ddZero (by decide) (by decide)).2.1⟩

/- ===== prng (unnamed LFG source file) : Lagged Fibonacci Generator ===== -/

/-- `big.Int.SetBit(x, i, b)`: set bit `i` of `x` to `b` (this can clear a
bit when `b = 0`, as the time-derived perturbation bits in `NewLFG` can). -/
def setBit (x i : ℕ) (b : Bool) : ℕ :=
  if b then x ||| 2 ^ i
  else if x.testBit i then x - 2 ^ i else x

/-- `generateFallbackRandom`: assemble `(bitSize + 30) / 31` blocks of 31
bits, block `i` being `seed_i mod 2^31` shifted left by `i * 31` and OR-ed
into the result; `seeds i` stands for the nonnegative timestamp value
`time.Now().UnixNano() + i*9999` used for block `i`. -/
def generateFallbackRandom (bitSize : ℕ) (seeds : ℕ → ℕ) : ℕ :=
  (List.range ((bitSize + 30) / 31)).foldl
    (fun acc i => acc ||| (seeds i % 2 ^ 31) <<< (i * 31)) 0

/-- The randomness consumed when filling one LFG state slot: either the
crypto draw succeeded with raw value `v` (`rand.Int` guarantees
`v < modValue - 1`), or it failed and the fallback runs with the given block
seeds; `b1`/`b2` are the two time-parity bits of the perturbation
(`uint(time.Now().UnixNano() % 2)` and the `+i` variant). -/
structure LFGDraw where
  src : ℕ ⊕ (ℕ → ℕ)
  b1 : Bool
  b2 : Bool

/-- The value stored in one freshly constructed state slot: the drawn (or
fallback) value, then — when `bitSize > 1` — bit `bitSize-1` forced to 1 and
bits `bitSize/2`, `bitSize/3` set to the two time parities. -/
def lfgSlotValue (bitSize : ℕ) (d : LFGDraw) : ℕ :=
  let randBits := match d.src with
    | Sum.inl v => v
    | Sum.inr seeds => generateFallbackRandom bitSize seeds
  if 1 < bitSize then
    setBit (setBit (setBit randBits (bitSize - 1) true) (bitSize / 2) d.b1)
      (bitSize / 3) d.b2
  else randBits

/-- The LFG state (field order as in the Go struct). -/
structure LaggedFibonacciGenerator where
  j : ℕ
  k : ℕ
  state : List ℕ
  size : ℕ
  modValue : ℕ
  bitSize : ℕ
deriving Inhabited

/-- `NewLFG`: panic (`none`) when `j ≥ k`; clamp `size` up to `k`; set
`modValue = 2^bitSize` and fill the `size` slots from the draws. -/
def NewLFG (size j k bitSize : ℕ) (draws : ℕ → LFGDraw) :
    Option LaggedFibonacciGenerator :=
  if j ≥ k then none
  else
    some ⟨j, k,
      (List.range (if size < k then k else size)).map
        (fun i => lfgSlotValue bitSize (draws i)),
      (if size < k then k else size), 2 ^ bitSize, bitSize⟩

/-- `Next`: read `state[size-j]` and `state[size-k]` (`none` models the Go
index-out-of-range panic), take their sum mod `modValue`, shift the window
down one slot and append the result, returning the result. -/
def LaggedFibonacciGenerator.Next (g : LaggedFibonacciGenerator) :
    Option (ℕ × LaggedFibonacciGenerator) :=
  match g.state.get? (g.size - g.j), g.state.get? (g.size - g.k) with
  | some a, some b =>
    let result := (a + b) % g.modValue
    some (result,
      ⟨g.j, g.k, g.state.drop 1 ++ [result], g.size, g.modValue, g.bitSize⟩)
  | _, _ => none

/-- Run `m` successive `Next` calls, collecting the outputs. -/
def lfgRun : LaggedFibonacciGenerator → ℕ →
    Option (List ℕ × LaggedFibonacciGenerator)
  | g, 0 => some ([], g)
  | g, m + 1 =>
    match g.Next with
    | none => none
    | some (x, g2) =>
      match lfgRun g2 m with
      | none => none
      | some (xs, g3) => some (x :: xs, g3)

/-- An all-primary constant draw oracle (crypto path, raw value 0). -/
def lfgPrimaryDraws : ℕ → LFGDraw := fun _ => ⟨Sum.inl 0, false, false⟩

/- ===== C8 ===== -/

/-- C8: `NewLFG` fails exactly (with the `j deve ser menor que k` panic, the
`InvalidParameters` class) when `j ≥ k`; otherwise it returns a generator
whose buffer size and state length are `max size k` (the clamp) and whose
modulus is exactly `2^bitSize`. -/
theorem newLFG_validation_spec (size j k bitSize : ℕ) (draws : ℕ → LFGDraw) :
    (k ≤ j → NewLFG size j k bitSize draws = none) ∧
    (j < k → ∃ g, NewLFG size j k bitSize draws = some g ∧
      g.size = max size k ∧ g.state.length = max size k ∧
      g.modValue = 2 ^ bitSize ∧ g.j = j ∧ g.k = k) := by
  constructor
  · intro hkj
    unfold NewLFG
    rw [if_pos (by omega)]
  · intro hjk
    unfold NewLFG
    rw [if_neg (by omega)]
    refine ⟨_, rfl, ?_, ?_, rfl, rfl, rfl⟩
    · show (if size < k then k else size) = max size k
      split <;> omega
    · show ((List.range (if size < k then k else size)).map _).length = max size k
      rw [List.length_map, List.length_range]
      split <;> omega

/-- The generator built by `NewLFG 0 1 2 4` with the constant primary draw. -/
def lfgPrimGen : LaggedFibonacciGenerator :=
  (NewLFG 0 1 2 4 lfgPrimaryDraws).getD default

/-- C8 witness: `j = k = 2` is rejected; `j = 1 < k = 2` with `size = 0`
produces a generator clamped to buffer length 2 with modulus 16. -/
theorem newLFG_validation_spec_witness :
    NewLFG 0 2 2 4 lfgPrimaryDraws = none ∧
    lfgPrimGen.size = max 0 2 ∧ lfgPrimGen.state.length = max 0 2 ∧
    lfgPrimGen.modValue = 2 ^ 4 := by
  have h1 := (newLFG_validation_spec 0 2 2 4 lfgPrimaryDraws).1 (by omega)
  have h2 := (newLFG_validation_spec 0 1 2 4 lfgPrimaryDraws).2 (by omega)
  obtain ⟨g, hg, hs, hl, hm, -, -⟩ := h2
  have hgw : lfgPrimGen = g := by
    unfold lfgPrimGen
    rw [hg, Option.getD_some]
  exact ⟨h1, by rw [hgw]; exact hs, by rw [hgw]; exact hl, by rw [hgw]; exact hm⟩

/- ===== C5 ===== -/

/-- A generator with lag `j = 0` (accepted by `NewLFG`, since `0 < k`). -/
def lfgZeroLag : LaggedFibonacciGenerator := ⟨0, 1, [0], 1, 2, 1⟩

/-- C5 counterexample: the claim quantifies over all lags `j < k ≤ size`,
but for `j = 0` (state `[0]`, `size = k = 1`, modulus `2`) `Next` reads
`state[size - 0] = state[size]`, one past the end — an index-out-of-range
panic (`none`) instead of the claimed sum-mod-shift result. -/
theorem lfg_next_zero_lag_counterexample :
    lfgZeroLag.j < lfgZeroLag.k ∧ lfgZeroLag.k ≤ lfgZeroLag.size ∧
    lfgZeroLag.state.length = lfgZeroLag.size ∧ lfgZeroLag.Next = none :=
  ⟨by decide, by decide, by decide, rfl⟩

/-- C5 amended: for every generator with `1 ≤ j < k ≤ size` and state length
`size`, one `Next` call returns `(state[size-j] + state[size-k]) mod
modValue`, drops the oldest slot and appends the result; and (determinism)
`Next` is a pure function of the prior state: generators with identical
state produce identical output sequences. -/
theorem lfg_next_amended (g : LaggedFibonacciGenerator)
    (hj : 1 ≤ g.j) (hjk : g.j < g.k) (hk : g.k ≤ g.size)
    (hlen : g.state.length = g.size) :
    g.Next = some
      ((g.state.getD (g.size - g.j) 0 + g.state.getD (g.size - g.k) 0) %
        g.modValue,
      ⟨g.j, g.k,
        g.state.drop 1 ++
          [(g.state.getD (g.size - g.j) 0 + g.state.getD (g.size - g.k) 0) %
            g.modValue],
        g.size, g.modValue, g.bitSize⟩) ∧
    (∀ g2 : LaggedFibonacciGenerator, g2 = g → ∀ m, lfgRun g m = lfgRun g2 m) := by
  refine ⟨?_, fun g2 h m => by rw [h]⟩
  have hja : g.size - g.j < g.state.length := by omega
  have hka : g.size - g.k < g.state.length := by omega
  unfold LaggedFibonacciGenerator.Next
  rw [List.get?_eq_get hja, List.get?_eq_get hka]
  rw [List.getD_eq_getElem?_getD g.state (g.size - g.j) 0,
    List.getD_eq_getElem?_getD g.state (g.size - g.k) 0,
    ← List.get?_eq_getElem? g.state (g.size - g.j),
    ← List.get?_eq_getElem? g.state (g.size - g.k),
    List.get?_eq_get hja, List.get?_eq_get hka]
  rfl

/-- A concrete well-lagged generator for the C5 witness. -/
def lfgWitGen : LaggedFibonacciGenerator := ⟨1, 2, [5, 9], 2, 16, 4⟩

/-- C5 amended witness: `state = [5, 9]`, `j = 1`, `k = 2`: `Next` returns
`(9 + 5) mod 16 = 14` and the state becomes `[9, 14]`. -/
theorem lfg_next_amended_witness :
    lfgWitGen.Next = some
      ((lfgWitGen.state.getD (lfgWitGen.size - lfgWitGen.j) 0 +
        lfgWitGen.state.getD (lfgWitGen.size - lfgWitGen.k) 0) %
          lfgWitGen.modValue,
      ⟨lfgWitGen.j, lfgWitGen.k,
        lfgWitGen.state.drop 1 ++
          [(lfgWitGen.state.getD (lfgWitGen.size - lfgWitGen.j) 0 +
            lfgWitGen.state.getD (lfgWitGen.size - lfgWitGen.k) 0) %
              lfgWitGen.modValue],
        lfgWitGen.size, lfgWitGen.modValue, lfgWitGen.bitSize⟩) :=
  (lfg_next_amended lfgWitGen (by decide) (by decide) (by decide) (by decide)).1

/- ===== C6 ===== -/

/-- `setBit` at a position below the width preserves the width bound. -/
theorem setBit_lt_two_pow (x i w : ℕ) (b : Bool) (hx : x < 2 ^ w) (hi : i < w) :
    setBit x i b < 2 ^ w := by
  have hpow : 2 ^ i < 2 ^ w := Nat.pow_lt_pow_right (by omega) hi
  cases b with
  | true =>
    rw [show setBit x i true = x ||| 2 ^ i from by simp [setBit]]
    exact Nat.or_lt_two_pow hx (by omega)
  | false =>
    rw [show setBit x i false = if x.testBit i then x - 2 ^ i else x from by
      simp [setBit]]
    split
    · exact lt_of_le_of_lt (Nat.sub_le x (2 ^ i)) hx
    · exact hx

/-- A slot filled from a successful crypto draw (`rand.Int` guarantees the
raw value is below `modValue - 1`) stays below the modulus: the three
`SetBit` positions all lie below `bitSize`. -/
theorem lfgSlotValue_lt (bitSize : ℕ) (d : LFGDraw) (v : ℕ)
    (hsrc : d.src = Sum.inl v) (hv : v < 2 ^ bitSize - 1) :
    lfgSlotValue bitSize d < 2 ^ bitSize := by
  have hv2 : v < 2 ^ bitSize := by omega
  have hred : lfgSlotValue bitSize d =
      if 1 < bitSize then
        setBit (setBit (setBit v (bitSize - 1) true) (bitSize / 2) d.b1)
          (bitSize / 3) d.b2
      else v := by
    unfold lfgSlotValue
    rw [hsrc]
  rw [hred]
  by_cases hb : 1 < bitSize
  · rw [if_pos hb]
    exact setBit_lt_two_pow _ _ _ _
      (setBit_lt_two_pow _ _ _ _
        (setBit_lt_two_pow _ _ _ _ hv2 (by omega)) (by omega)) (by omega)
  · rw [if_neg hb]
    exact hv2

/-- C6 amended: a generator constructed by `NewLFG` always satisfies
`len(state) = size`, `size ≥ k` and `modValue = 2^bitSize`; its elements all
lie in `[0, 2^bitSize)` provided every slot's crypto draw succeeded (the
fallback path can exceed the modulus — see the counterexample); and a
successful `Next` call preserves the whole invariant. -/
theorem lfg_invariant_amended (size j k bitSize : ℕ) (draws : ℕ → LFGDraw)
    (g : LaggedFibonacciGenerator)
    (hcons : NewLFG size j k bitSize draws = some g) :
    (g.state.length = g.size ∧ g.k ≤ g.size ∧ g.modValue = 2 ^ bitSize) ∧
    ((∀ i, ∃ v, (draws i).src = Sum.inl v ∧ v < 2 ^ bitSize - 1) →
      ∀ x ∈ g.state, x < 2 ^ bitSize) ∧
    (∀ gen : LaggedFibonacciGenerator, gen.state.length = gen.size →
      gen.k ≤ gen.size → (∀ x ∈ gen.state, x < gen.modValue) →
      ∀ res gen2, gen.Next = some (res, gen2) →
        gen2.state.length = gen2.size ∧ gen2.k ≤ gen2.size ∧
        gen2.modValue = gen.modValue ∧ ∀ x ∈ gen2.state, x < gen2.modValue) := by
  unfold NewLFG at hcons
  by_cases hjk : j ≥ k
  · rw [if_pos hjk] at hcons
    exact absurd hcons (by simp)
  · rw [if_neg hjk] at hcons
    simp only [Option.some.injEq] at hcons
    subst hcons
    refine ⟨⟨?_, ?_, rfl⟩, ?_, ?_⟩
    · show ((List.range (if size < k then k else size)).map _).length = _
      rw [List.length_map, List.length_range]
    · show k ≤ (if size < k then k else size)
      split <;> omega
    · intro hprim x hx
      simp only [List.mem_map, List.mem_range] at hx
      obtain ⟨i, -, rfl⟩ := hx
      obtain ⟨v, hsrc, hv⟩ := hprim i
      exact lfgSlotValue_lt bitSize (draws i) v hsrc hv
    · intro gen hlen hk hbound res gen2 hnext
      unfold LaggedFibonacciGenerator.Next at hnext
      cases hga : gen.state.get? (gen.size - gen.j) with
      | none => rw [hga] at hnext; exact absurd hnext (by simp)
      | some a =>
        cases hgb : gen.state.get? (gen.size - gen.k) with
        | none => rw [hga, hgb] at hnext; exact absurd hnext (by simp)
        | some b =>
          rw [hga, hgb] at hnext
          simp only [Option.some.injEq, Prod.mk.injEq] at hnext
          obtain ⟨rfl, rfl⟩ := hnext
          have hmem : a ∈ gen.state := List.get?_mem hga
          have hlen1 : 1 ≤ gen.state.length := by
            obtain ⟨hlt, -⟩ := List.get?_eq_some.mp hga
            omega
          have hpos : 0 < gen.modValue := by
            have := hbound a hmem
            omega
          refine ⟨?_, hk, rfl, ?_⟩
          · show (gen.state.drop 1 ++ [_]).length = gen.size
            rw [List.length_append, List.length_drop]
            simp only [List.length_singleton]
            omega
          · intro x hx
            rcases List.mem_append.mp hx with hx1 | hx2
            · exact hbound x (List.drop_subset 1 gen.state hx1)
            · rw [List.mem_singleton.mp hx2]
              exact Nat.mod_lt _ hpos

/-- Block seeds making the fallback produce a 62-bit value: block 1 draws
`2^30`, contributing `2^30 <<< 31 = 2^61`. -/
def lfgBadSeeds : ℕ → ℕ := fun i => if i = 1 then 2 ^ 30 else 0

/-- A draw oracle on which every slot takes the fallback path with the bad
seeds. -/
def lfgBadDraws : ℕ → LFGDraw := fun _ => ⟨Sum.inr lfgBadSeeds, true, true⟩

/-- The generator `NewLFG 2 1 2 40` constructs from the bad fallback draws. -/
def lfgBadGen : LaggedFibonacciGenerator :=
  (NewLFG 2 1 2 40 lfgBadDraws).getD default

/-- C6 counterexample: with `bitSize = 40` the fallback assembles
`(40+30)/31 = 2` blocks of 31 bits, so a block seed of `2^30` lands at bit
61; the constructed state element `2^61 + 2^39 + 2^20 + 2^13` is far above
the modulus `2^40`, violating the claimed invariant `state[i] ∈ [0, 2^bitSize)`
on the fallback path. -/
theorem lfg_fallback_overflow_counterexample :
    NewLFG 2 1 2 40 lfgBadDraws = some lfgBadGen ∧
    lfgBadGen.state.getD 0 0 = 2 ^ 61 + 2 ^ 39 + 2 ^ 20 + 2 ^ 13 ∧
    ¬(lfgBadGen.state.getD 0 0 < 2 ^ 40) := ⟨rfl, by decide, by decide⟩

/-- C6 amended witness: the crypto-path generator `lfgPrimGen` (draws all
primary, raw value `0 < 2^4 - 1`) satisfies the full invariant. -/
theorem lfg_invariant_amended_witness :
    (lfgPrimGen.state.length = lfgPrimGen.size ∧
     lfgPrimGen.k ≤ lfgPrimGen.size ∧ lfgPrimGen.modValue = 2 ^ 4) ∧
    (8 ∈ lfgPrimGen.state → 8 < 2 ^ 4) := by
  have h := lfg_invariant_amended 0 1 2 4 lfgPrimaryDraws lfgPrimGen rfl
  exact ⟨h.1, fun hm => h.2.1 (fun i => ⟨0, rfl, by decide⟩) 8 hm⟩

/- ===== prng/bbs.go : Blum-Blum-Shub ===== -/

/-- The BBS generator state (field order as in the Go struct); `p` and `q`
are carried but only `n`, `state` and `bitSize` drive `Next`. -/
structure BlumBlumShub where
  p : ℕ
  q : ℕ
  n : ℕ
  state : ℕ
  bitSize : ℕ

/-- `NextState`: replace the state by `state^2 mod n` and return it. -/
def BlumBlumShub.NextState (b : BlumBlumShub) : ℕ × BlumBlumShub :=
  (b.state ^ 2 % b.n, ⟨b.p, b.q, b.n, b.state ^ 2 % b.n, b.bitSize⟩)

/-- `NextBit`: advance the state, return its parity (`state.Bit(0)`, a
`uint` valued 0 or 1). -/
def BlumBlumShub.NextBit (b : BlumBlumShub) : ℕ × BlumBlumShub :=
  ((b.NextState).2.state % 2, (b.NextState).2)

/-- The `for i := 0; i < bitSize; i++` accumulation loop of `Next`: shift
the accumulator left and, when the fresh bit is 1, OR it in. -/
def bbsNextAux : BlumBlumShub → ℕ → ℕ → ℕ × BlumBlumShub
  | b, acc, 0 => (acc, b)
  | b, acc, m + 1 =>
    bbsNextAux (b.NextBit).2
      (if (b.NextBit).1 = 1 then (acc <<< 1) ||| 1 else acc <<< 1) m

/-- `Next`: assemble `bitSize` fresh bits, most significant first. -/
def BlumBlumShub.Next (b : BlumBlumShub) : ℕ × BlumBlumShub :=
  bbsNextAux b 0 b.bitSize

/-- Closed form of the accumulation loop: after `m` steps the accumulator
holds its old value shifted up `m` places plus the `m` produced parity bits
in most-significant-first order, and the state has been squared `m` times. -/
theorem bbsNextAux_spec :
    ∀ m (b : BlumBlumShub) (acc : ℕ),
      bbsNextAux b acc m =
        (acc * 2 ^ m +
          ∑ i ∈ Finset.range m,
            mrSeq b.n b.state (i + 1) % 2 * 2 ^ (m - 1 - i),
         ⟨b.p, b.q, b.n, mrSeq b.n b.state m, b.bitSize⟩) := by
  intro m
  induction m with
  | zero =>
    intro b acc
    simp [bbsNextAux, mrSeq]
  | succ m ih =>
    intro b acc
    rw [show bbsNextAux b acc (m + 1) =
        bbsNextAux ⟨b.p, b.q, b.n, b.state ^ 2 % b.n, b.bitSize⟩
          (if b.state ^ 2 % b.n % 2 = 1 then (acc <<< 1) ||| 1
           else acc <<< 1) m from rfl]
    rw [ih]
    have hacc : (if b.state ^ 2 % b.n % 2 = 1 then (acc <<< 1) ||| 1
        else acc <<< 1) = 2 * acc + b.state ^ 2 % b.n % 2 := by
      rw [Nat.shiftLeft_eq, pow_one]
      split
      · rw [even_lor_one _ (by omega)]
        omega
      · omega
    simp only [Prod.mk.injEq]
    constructor
    · rw [hacc]
      show (2 * acc + b.state ^ 2 % b.n % 2) * 2 ^ m +
          ∑ i ∈ Finset.range m,
            mrSeq b.n (b.state ^ 2 % b.n) (i + 1) % 2 * 2 ^ (m - 1 - i) =
        acc * 2 ^ (m + 1) +
          ∑ i ∈ Finset.range (m + 1),
            mrSeq b.n b.state (i + 1) % 2 * 2 ^ (m + 1 - 1 - i)
      rw [Finset.sum_range_succ']
      have hs : ∀ i, mrSeq b.n (b.state ^ 2 % b.n) (i + 1) % 2 *
            2 ^ (m - 1 - i) =
          mrSeq b.n b.state (i + 1 + 1) % 2 * 2 ^ (m + 1 - 1 - (i + 1)) := by
        intro i
        rw [mrSeq_shift]
        congr 2
        omega
      rw [Finset.sum_congr rfl fun i _ => hs i]
      have h0 : mrSeq b.n b.state (0 + 1) % 2 * 2 ^ (m + 1 - 1 - 0) =
          b.state ^ 2 % b.n % 2 * 2 ^ m := by
        rw [show mrSeq b.n b.state (0 + 1) = b.state ^ 2 % b.n from by
          simp [mrSeq]]
        congr 2
      rw [h0]
      ring
    · rw [mrSeq_shift]

/-- Sum of the first `m` powers of two. -/
theorem sum_two_pow (m : ℕ) : ∑ i ∈ Finset.range m, 2 ^ i = 2 ^ m - 1 := by
  induction m with
  | zero => simp
  | succ m ih =>
    rw [Finset.sum_range_succ, ih]
    have hp : 2 ^ (m + 1) = 2 * 2 ^ m := by ring
    have h1 : 0 < 2 ^ m := pow_pos (by omega) m
    omega

/-- C7: for a BBS generator with modulus `n ≥ 2`, `NextBit` replaces the
state by `state^2 mod n` and returns that new state's parity, always 0 or 1;
and `Next` assembles exactly `bitSize` such bits most-significant-first
(performing `bitSize` state squarings) into a value below `2^bitSize`. -/
theorem bbs_next_spec (b : BlumBlumShub) (_h2 : 2 ≤ b.n) :
    ((b.NextBit).2.state = b.state ^ 2 % b.n ∧
     (b.NextBit).1 = b.state ^ 2 % b.n % 2 ∧ (b.NextBit).1 < 2) ∧
    (b.Next).2.state = mrSeq b.n b.state b.bitSize ∧
    (b.Next).1 =
      ∑ i ∈ Finset.range b.bitSize,
        mrSeq b.n b.state (i + 1) % 2 * 2 ^ (b.bitSize - 1 - i) ∧
    (b.Next).1 < 2 ^ b.bitSize := by
  have haux := bbsNextAux_spec b.bitSize b 0
  refine ⟨⟨rfl, rfl, Nat.mod_lt _ (by omega)⟩, ?_, ?_, ?_⟩
  · unfold BlumBlumShub.Next
    rw [haux]
  · unfold BlumBlumShub.Next
    rw [haux]
    simp
  · unfold BlumBlumShub.Next
    rw [haux]
    simp only [zero_mul, zero_add]
    have hle : (∑ i ∈ Finset.range b.bitSize,
        mrSeq b.n b.state (i + 1) % 2 * 2 ^ (b.bitSize - 1 - i)) ≤
        ∑ i ∈ Finset.range b.bitSize, 2 ^ (b.bitSize - 1 - i) := by
      refine Finset.sum_le_sum fun i _ => ?_
      calc mrSeq b.n b.state (i + 1) % 2 * 2 ^ (b.bitSize - 1 - i)
          ≤ 1 * 2 ^ (b.bitSize - 1 - i) :=
            Nat.mul_le_mul_right _ (by omega)
        _ = 2 ^ (b.bitSize - 1 - i) := one_mul _
    have hrefl : (∑ i ∈ Finset.range b.bitSize, 2 ^ (b.bitSize - 1 - i)) =
        ∑ i ∈ Finset.range b.bitSize, 2 ^ i :=
      Finset.sum_range_reflect (fun i => 2 ^ i) b.bitSize
    have hpos : 0 < 2 ^ b.bitSize := pow_pos (by omega) _
    have hsum2 := sum_two_pow b.bitSize
    omega

/-- A concrete BBS generator: `p = 3`, `q = 7`, `n = 21`, state 3, three
bits. -/
def bbsWitGen : BlumBlumShub := ⟨3, 7, 21, 3, 3⟩

/-- C7 witness: on the concrete generator the squaring sequence is
`9, 18, 9`, the bits `1, 0, 1`, the output `5 < 2^3`. -/
theorem bbs_next_spec_witness :
    (bbsWitGen.Next).2.state = mrSeq bbsWitGen.n bbsWitGen.state bbsWitGen.bitSize ∧
    (bbsWitGen.Next).1 =
      ∑ i ∈ Finset.range bbsWitGen.bitSize,
        mrSeq bbsWitGen.n bbsWitGen.state (i + 1) % 2 *
          2 ^ (bbsWitGen.bitSize - 1 - i) ∧
    (bbsWitGen.Next).1 < 2 ^ bbsWitGen.bitSize :=
  (bbs_next_spec bbsWitGen (by decide)).2
